import Mathlib

/-!
# Verification of a two-variant priority queue (sorted linked list / binary heap)

Shallow embedding of the C++ sources `Q1_pqueue_list.h` (sorted singly linked
list) and `Q2_pqueue_heap.h` (binary min-heap over a growable array).

Modelling conventions:
* values (`pqueuetype`) are `Nat`;
* `double` priorities are modelled as `Int`: the code only ever compares
  priorities with `<`, `==`, `>=`, never computes with them, so any linear
  order is a faithful model of the comparisons actually performed;
* `clock_t` ranks are `Nat`; since `c.rank = clock()` samples an external
  clock, the heap `enqueue` takes the sampled clock value as an explicit
  argument (the clock is an input of the algorithm, not part of the state);
* `Vector<cell>` is modelled as `List HCell` with the Stanford `Vector`
  value semantics (indexed read/write, append, `removeBack`);
* `error(...)` (which throws) is modelled by `Option`/an error component:
  an operation that signals returns `none` and the state component it
  returns is the unmodified receiver.
-/

set_option maxHeartbeats 1000000

/-! ## Heap variant (`Q2_pqueue_heap.h`) -/

/-- `parent` from `Q2_pqueue_heap.h` lines 24–27. -/
def parent (n : Nat) : Nat := (n - 1) / 2

/-- `leftchild` from `Q2_pqueue_heap.h` lines 36–39. -/
def leftchild (n : Nat) : Nat := 2 * n + 1

/-- `rightchild` from `Q2_pqueue_heap.h` lines 48–51. -/
def rightchild (n : Nat) : Nat := 2 * n + 2

/-- Heap cell (`Q2_pqueue_heap.h` lines 196–201): data, priority, rank. -/
structure HCell where
  data : Nat
  priority : Int
  rank : Nat
deriving Repr, DecidableEq

instance : Inhabited HCell := ⟨⟨0, 0, 0⟩⟩

/-- Heap-variant queue state (`Q2_pqueue_heap.h` lines 205–206):
the backing `Vector<cell>` and the element count. -/
structure HeapPQ where
  pq : List HCell
  count : Nat
deriving Repr, DecidableEq

/-- Freshly constructed heap queue (`Q2_pqueue_heap.h` lines 227–231). -/
def emptyHeap : HeapPQ := ⟨[], 0⟩

/-- Indexed read `pqueue[i]` with the `Inhabited` default out of range
(all in-range uses are justified separately). -/
def getc (arr : List HCell) (i : Nat) : HCell := arr.getD i default

/-- `size()` for the heap variant (`Q2_pqueue_heap.h` lines 243–247). -/
def hsize (s : HeapPQ) : Nat := s.count

/-- `isEmpty()` for the heap variant (`Q2_pqueue_heap.h` lines 249–253). -/
def hIsEmpty (s : HeapPQ) : Bool := s.count == 0

/-- The sift-up loop of `enqueue` (`Q2_pqueue_heap.h` lines 274–281):
while the new cell is not at the root and has strictly smaller priority
than its parent, swap it with its parent.  The loop strictly decreases
`anchor`, so `fuel = anchor` iterations always suffice: when `fuel = 0`
then `anchor = 0` as well and the loop guard is false anyway. -/
def siftUp : Nat → List HCell → Nat → List HCell
  | 0, arr, _ => arr
  | fuel + 1, arr, anchor =>
      if anchor ≠ 0 ∧ (getc arr anchor).priority < (getc arr (parent anchor)).priority then
        siftUp fuel
          ((arr.set anchor (getc arr (parent anchor))).set (parent anchor) (getc arr anchor))
          (parent anchor)
      else arr

/-- `enqueue` (`Q2_pqueue_heap.h` lines 264–283).  `clk` is the value the
call `clock()` returns at this enqueue (an external input). -/
def heapEnqueue (s : HeapPQ) (value : Nat) (priority : Int) (clk : Nat) : HeapPQ :=
  let c : HCell := ⟨value, priority, clk⟩
  ⟨siftUp s.count (s.pq ++ [c]) s.count, s.count + 1⟩

/-- Steps 4–5 of `dequeue` for `count ≥ 2` (`Q2_pqueue_heap.h` lines 315–322):
move the last cell onto the root, `removeBack`, and if the decremented count
is even append a duplicate of the relocated root.  Returns the array, the
count, and the `completed` flag. -/
def heapMoveFix (s : HeapPQ) : List HCell × Nat × Bool :=
  let m := getc s.pq (s.count - 1)
  let arr1 := (s.pq.set 0 m).dropLast
  let cnt1 := s.count - 1
  if cnt1 % 2 = 0 then (arr1 ++ [getc arr1 0], cnt1 + 1, true)
  else (arr1, cnt1, false)

/-- The four `break` conditions of the sift-down loop
(`Q2_pqueue_heap.h` lines 325–336). -/
def siftBreak (a l r : HCell) : Prop :=
  (a.priority < l.priority ∧ a.priority < r.priority)
  ∨ (a.priority = l.priority ∧ a.rank ≤ l.rank ∧ a.priority < r.priority)
  ∨ (a.priority < l.priority ∧ a.priority = r.priority ∧ a.rank ≤ r.rank)
  ∨ (a.priority = l.priority ∧ a.priority = r.priority ∧ a.rank ≤ l.rank ∧ a.rank ≤ r.rank)

instance (a l r : HCell) : Decidable (siftBreak a l r) := by
  unfold siftBreak; infer_instance

/-- Which child index the swap branch selects
(`Q2_pqueue_heap.h` lines 337–389): if the anchor's priority exceeds a
child's, swap towards the smaller-priority child (rank breaking a
child/child priority tie); otherwise swap towards the smaller-rank child. -/
def siftChild (a l r : HCell) (anchor : Nat) : Nat :=
  if a.priority > l.priority ∨ a.priority > r.priority then
    if l.priority < r.priority then leftchild anchor
    else if l.priority > r.priority then rightchild anchor
    else if l.rank < r.rank then leftchild anchor else rightchild anchor
  else
    if l.rank < r.rank then leftchild anchor else rightchild anchor

/-- The selected child is a strictly deeper index, and at most the right child. -/
theorem siftChild_bounds (a l r : HCell) (anchor : Nat) :
    anchor < siftChild a l r anchor ∧ siftChild a l r anchor ≤ 2 * anchor + 2 := by
  unfold siftChild leftchild rightchild
  repeat' split
  all_goals omega

/-- The sift-down loop of `dequeue` (`Q2_pqueue_heap.h` lines 323–390):
while `count >= 2*anchor+2`, either one of the four break conditions stops
the loop, or the anchor cell is swapped with the selected child and the
anchor moves to that child's index.  The anchor strictly increases and the
guard forces `anchor < cnt`, so `fuel = cnt - anchor` iterations always
suffice (maintained: `cnt - anchor ≤ fuel`); when `fuel = 0` then
`anchor ≥ cnt` and the guard is false anyway. -/
def siftDown : Nat → List HCell → Nat → Nat → List HCell
  | 0, arr, _, _ => arr
  | fuel + 1, arr, cnt, anchor =>
      if 2 * anchor + 2 ≤ cnt then
        let a := getc arr anchor
        let l := getc arr (leftchild anchor)
        let r := getc arr (rightchild anchor)
        if siftBreak a l r then arr
        else
          let c := siftChild a l r anchor
          siftDown fuel ((arr.set anchor (getc arr c)).set c a) cnt c
      else arr

/-- `dequeue` (`Q2_pqueue_heap.h` lines 300–398).  Returns the signalled
result (`none` models `error("dequeue: empty priority queue")`) together
with the post-state; on the error path the state is returned untouched. -/
def heapDequeue (s : HeapPQ) : Option Nat × HeapPQ :=
  if s.count = 0 then (none, s)
  else
    let result := (getc s.pq 0).data
    if s.count = 1 then (some result, ⟨s.pq.dropLast, s.count - 1⟩)
    else
      let mf := heapMoveFix s
      let arr := siftDown mf.2.1 mf.1 mf.2.1 0
      if mf.2.2 then (some result, ⟨arr.dropLast, mf.2.1 - 1⟩)
      else (some result, ⟨arr, mf.2.1⟩)

/-- `peek` for the heap variant (`Q2_pqueue_heap.h` lines 400–405). -/
def heapPeek (s : HeapPQ) : Option Nat :=
  if s.count = 0 then none else some (getc s.pq 0).data

/-- Repeated dequeue with explicit fuel (each successful dequeue
decrements `count` by one, so `s.count` is exactly enough fuel). -/
def heapDrainGo : Nat → HeapPQ → List Nat
  | 0, _ => []
  | n + 1, s =>
      match heapDequeue s with
      | (some v, s2) => v :: heapDrainGo n s2
      | (none, _) => []

/-- Drain the heap queue by repeated `dequeue` until empty; the list of
returned values in order. -/
def heapDrain (s : HeapPQ) : List Nat := heapDrainGo s.count s

/-- Enqueue a list of (value, priority, clock sample) triples in order. -/
def heapEnqueues (s : HeapPQ) (xs : List (Nat × Int × Nat)) : HeapPQ :=
  xs.foldl (fun t x => heapEnqueue t x.1 x.2.1 x.2.2) s

/-- The heap invariant claimed in the spec (§3): for every node whose both
children are within the live `count`, the node's (priority, rank) pair is
not-greater than each child's under the §4.2 tie-break ordering. -/
def cellLE (a b : HCell) : Prop :=
  a.priority < b.priority ∨ (a.priority = b.priority ∧ a.rank ≤ b.rank)

instance (a b : HCell) : Decidable (cellLE a b) := by
  unfold cellLE; infer_instance

/-- Heap-order invariant over the live prefix of the backing array. -/
def heapOrderOK (s : HeapPQ) : Prop :=
  ∀ i, rightchild i < s.count →
    cellLE (getc s.pq i) (getc s.pq (leftchild i))
    ∧ cellLE (getc s.pq i) (getc s.pq (rightchild i))

instance (s : HeapPQ) : Decidable (heapOrderOK s) := by
  unfold heapOrderOK rightchild
  have : (∀ i, 2 * i + 2 < s.count →
      cellLE (getc s.pq i) (getc s.pq (leftchild i))
      ∧ cellLE (getc s.pq i) (getc s.pq (2 * i + 2)))
      ↔ (∀ i < s.count,  2 * i + 2 < s.count →
      cellLE (getc s.pq i) (getc s.pq (leftchild i))
      ∧ cellLE (getc s.pq i) (getc s.pq (2 * i + 2))) := by
    constructor
    · intro h i _ hi; exact h i hi
    · intro h i hi; exact h i (by omega) hi
  exact decidable_of_iff _ this.symm

/-- The member surface declared by the heap-variant class
(`Q2_pqueue_heap.h` lines 61–138): constructor, destructor, `size`,
`isEmpty`, `enqueue`, `dequeue`, `peek`, copy constructor, assignment.
No `clear` member is declared. -/
def heapSurface : List String :=
  ["constructor", "destructor", "size", "isEmpty", "enqueue", "dequeue",
   "peek", "copyConstructor", "assignment"]

/-- The member surface declared by the list-variant class
(`Q1_pqueue_list.h` lines 22–108): constructor, destructor, `size`,
`isEmpty`, `clear`, `enqueue`, `dequeue`, `peek`, copy constructor,
assignment. -/
def listSurface : List String :=
  ["constructor", "destructor", "size", "isEmpty", "clear", "enqueue",
   "dequeue", "peek", "copyConstructor", "assignment"]

/-- The heap-variant `operator=` body (`Q2_pqueue_heap.h` lines 420–425):
it assigns `src`'s vector and count into the receiver and then falls off
the end of the function — no `return` statement executes.  The first
component is the receiver's new state; the second records whether a
`return` statement ran (`some ()`) or not (`none`). -/
def heapAssignExec (_dst src : HeapPQ) : HeapPQ × Option Unit :=
  (⟨src.pq, src.count⟩, none)

/-- Rendering used by both `operator<<` overloads: each dequeued value
followed by one space. -/
def renderVals : List Nat → String
  | [] => ""
  | v :: vs => toString v ++ " " ++ renderVals vs

/-- The loop of the heap `operator<<` (`Q2_pqueue_heap.h` lines 439–442):
`pqueue.size()` iterations, each printing `tmp.dequeue()` and a space from
a copy `tmp`; `none` models the `error(...)` throw on underflow. -/
def heapDisplayGo : Nat → HeapPQ → Option String
  | 0, _ => some ""
  | n + 1, s =>
      match heapDequeue s with
      | (some v, s2) => (heapDisplayGo n s2).map (fun str => toString v ++ " " ++ str)
      | (none, _) => none

/-- The heap `operator<<` (`Q2_pqueue_heap.h` lines 434–445): the queue is
passed by value, a further copy `tmp` is drained for `size()` iterations,
then `endl` is printed.  Returns the full rendered output. -/
def heapDisplay (s : HeapPQ) : Option String :=
  (heapDisplayGo s.count s).map (fun str => str ++ "\n")

/-- Modelled from the spec (§6, §4.2): the "priority-then-insertion order"
rendering the display is claimed to produce — the live cells sorted by the
tie-break ordering, then rendered like the code renders.  Used only to
compare the code's display against the spec's words. -/
def specOrderRender (s : HeapPQ) : String :=
  renderVals (((s.pq.take s.count).insertionSort cellLE).map HCell.data) ++ "\n"

/-! ## List variant (`Q1_pqueue_list.h`) -/

/-- List cell (`Q1_pqueue_list.h` lines 137–142): data and priority; the
`link` pointer is realized by the position in the Lean list. -/
structure LCell where
  data : Nat
  priority : Int
deriving Repr, DecidableEq

/-- List-variant queue state (`Q1_pqueue_list.h` lines 146–148): the chain
of cells from `head` to `tail`, and the element count.  `head`/`tail` are
the first/last cell of the chain (`NULL` iff the chain is empty). -/
structure ListPQ where
  cells : List LCell
  count : Nat
deriving Repr, DecidableEq

/-- Freshly constructed list queue (`Q1_pqueue_list.h` lines 169–174). -/
def emptyList : ListPQ := ⟨[], 0⟩

/-- `size()` for the list variant (`Q1_pqueue_list.h` lines 194–198). -/
def lsize (s : ListPQ) : Nat := s.count

/-- `isEmpty()` for the list variant (`Q1_pqueue_list.h` lines 200–204). -/
def lIsEmpty (s : ListPQ) : Bool := s.count == 0

/-- The interior-scan insertion of `enqueue` (`Q1_pqueue_list.h` lines
242–252): walk from the cell after `head` while `priority >= rank->link->priority`,
then splice the new cell in. -/
def insertScan (c : LCell) : List LCell → List LCell
  | [] => [c]
  | x :: xs => if x.priority ≤ c.priority then x :: insertScan c xs else c :: x :: xs

/-- `enqueue` (`Q1_pqueue_list.h` lines 223–255): four cases — empty list,
strictly smaller than the head's priority (prepend), at least the tail's
priority (append), otherwise the interior scan. -/
def listEnqueue (s : ListPQ) (value : Nat) (priority : Int) : ListPQ :=
  let c : LCell := ⟨value, priority⟩
  match hcells : s.cells with
  | [] => ⟨[c], s.count + 1⟩
  | h :: t =>
      if priority < h.priority then ⟨c :: h :: t, s.count + 1⟩
      else if (s.cells.getLast (by simp [hcells])).priority ≤ priority then
        ⟨(h :: t) ++ [c], s.count + 1⟩
      else ⟨h :: insertScan c t, s.count + 1⟩

/-- `dequeue` for the list variant (`Q1_pqueue_list.h` lines 265–278):
error on empty (state untouched), else remove the head cell. -/
def listDequeue (s : ListPQ) : Option Nat × ListPQ :=
  if s.count = 0 then (none, s)
  else
    match s.cells with
    | [] => (none, s)
    | c :: rest => (some c.data, ⟨rest, s.count - 1⟩)

/-- `peek` for the list variant (`Q1_pqueue_list.h` lines 280–285). -/
def listPeek (s : ListPQ) : Option Nat :=
  if s.count = 0 then none
  else
    match s.cells with
    | [] => none
    | c :: _ => some c.data

/-- The `clear` loop (`Q1_pqueue_list.h` lines 206–213): dequeue while
`count != 0`; each successful dequeue decrements `count`, so `count` is
exactly enough fuel. -/
def listClearGo : Nat → ListPQ → ListPQ
  | 0, s => s
  | n + 1, s => if s.count = 0 then s else listClearGo n (listDequeue s).2

/-- `clear` for the list variant (`Q1_pqueue_list.h` lines 206–213). -/
def listClear (s : ListPQ) : ListPQ := listClearGo s.count s

/-- `deepCopy` (`Q1_pqueue_list.h` lines 317–327): start from the empty
state and re-enqueue every source cell in chain order. -/
def listDeepCopy (src : ListPQ) : ListPQ :=
  src.cells.foldl (fun acc c => listEnqueue acc c.data c.priority) emptyList

/-- The list-variant `operator=` body (`Q1_pqueue_list.h` lines 299–308):
when the receiver and `src` are distinct objects (`aliased = false`) it
clears the receiver and deep-copies `src`; on self-assignment it does
nothing; either way `return *this` executes (`some ()`). -/
def listAssignExec (aliased : Bool) (dst src : ListPQ) : ListPQ × Option Unit :=
  if aliased then (dst, some ()) else (listDeepCopy src, some ())

/-- Repeated list dequeue with explicit fuel. -/
def listDrainGo : Nat → ListPQ → List Nat
  | 0, _ => []
  | n + 1, s =>
      match listDequeue s with
      | (some v, s2) => v :: listDrainGo n s2
      | (none, _) => []

/-- Drain the list queue by repeated `dequeue` until empty. -/
def listDrain (s : ListPQ) : List Nat := listDrainGo s.count s

/-- The loop of the list `operator<<` (`Q1_pqueue_list.h` lines 341–344). -/
def listDisplayGo : Nat → ListPQ → Option String
  | 0, _ => some ""
  | n + 1, s =>
      match listDequeue s with
      | (some v, s2) => (listDisplayGo n s2).map (fun str => toString v ++ " " ++ str)
      | (none, _) => none

/-- The list `operator<<` (`Q1_pqueue_list.h` lines 336–347): the queue is
passed by value, a copy `tmp` is drained for `size()` iterations, then
`endl`. -/
def listDisplay (s : ListPQ) : Option String :=
  (listDisplayGo s.count s).map (fun str => str ++ "\n")

/-- Enqueue a list of (value, priority) pairs in order. -/
def listEnqueues (s : ListPQ) (xs : List (Nat × Int)) : ListPQ :=
  xs.foldl (fun t x => listEnqueue t x.1 x.2) s

/-! ## Concrete states used by the trace theorems -/

/-- Five enqueues with priorities 0,1,1,0,0 (values 0..4, strictly
increasing clock samples 0..4). -/
def exFifo : HeapPQ := heapEnqueues emptyHeap [(0,0,0),(1,1,1),(2,1,2),(3,0,3),(4,0,4)]

/-- Five enqueues with priorities 0,0,1,0,0 and each value equal to its
priority (clock samples 0..4), so the drain lists the emitted priorities. -/
def exMono : HeapPQ := heapEnqueues emptyHeap [(0,0,0),(0,0,1),(1,1,2),(0,0,3),(0,0,4)]

/-- Five enqueues with priorities 0,0,1,0,0 and distinct values 0..4
(clock samples 0..4). -/
def exDist : HeapPQ := heapEnqueues emptyHeap [(0,0,0),(1,0,1),(2,1,2),(3,0,3),(4,0,4)]

/-- The same priorities 0,0,1,0,0 (values = priorities) in the list variant. -/
def exListMono : ListPQ := listEnqueues emptyList [(0,0),(0,0),(1,1),(0,0),(0,0)]

/-- A three-element heap state whose next dequeue triggers the duplicate
fix-up (the decremented count 2 is even). -/
def exW : HeapPQ := heapEnqueues emptyHeap [(0,0,0),(1,1,1),(2,2,2)]

/-- A one-element heap state. -/
def exH6 : HeapPQ := heapEnqueue emptyHeap 1 1 0

/-- A one-element list state. -/
def exL6 : ListPQ := listEnqueue emptyList 1 1

/-- A two-element list state. -/
def exL7 : ListPQ := listEnqueues emptyList [(5,3),(6,1)]

/-! ## Helper lemmas -/

theorem getc_set_self (arr : List HCell) (i : Nat) (x : HCell) (h : i < arr.length) :
    getc (arr.set i x) i = x := by
  induction arr generalizing i with
  | nil => simp at h
  | cons a t ih =>
    cases i with
    | zero => simp [getc]
    | succ j => simp only [List.set, getc, List.getD] at *; exact ih j (by simpa using h)

theorem getc_set_ne (arr : List HCell) (i j : Nat) (x : HCell) (h : i ≠ j) :
    getc (arr.set i x) j = getc arr j := by
  induction arr generalizing i j with
  | nil => simp [getc]
  | cons a t ih =>
    cases i with
    | zero => cases j with
      | zero => omega
      | succ k => simp [getc, List.getD]
    | succ m => cases j with
      | zero => simp [getc, List.getD]
      | succ k => simp only [List.set, getc, List.getD] at *; exact ih m k (by omega)

theorem getc_append_left (arr : List HCell) (x : HCell) (j : Nat) (h : j < arr.length) :
    getc (arr ++ [x]) j = getc arr j := by
  induction arr generalizing j with
  | nil => simp at h
  | cons a t ih =>
    cases j with
    | zero => simp [getc]
    | succ k =>
        simp only [List.cons_append, getc, List.getD, List.length_cons] at *
        exact ih k (by omega)

theorem getc_append_self (arr : List HCell) (x : HCell) :
    getc (arr ++ [x]) arr.length = x := by
  induction arr with
  | nil => simp [getc]
  | cons a t ih => simp [getc, List.getD, ih]

theorem getc_dropLast (arr : List HCell) (j : Nat) (h : j + 1 < arr.length) :
    getc arr.dropLast j = getc arr j := by
  induction arr generalizing j with
  | nil => simp at h
  | cons a t ih =>
    cases t with
    | nil => simp at h
    | cons b u =>
      cases j with
      | zero => simp [getc]
      | succ k =>
          simp only [List.dropLast, getc, List.getD, List.length_cons] at *
          exact ih k (by omega)

/-- The sift-down loop never changes the array's length. -/
theorem siftDown_length (fuel : Nat) : ∀ (arr : List HCell) (cnt anchor : Nat),
    (siftDown fuel arr cnt anchor).length = arr.length := by
  induction fuel with
  | zero => intro arr cnt anchor; rfl
  | succ k ih =>
      intro arr cnt anchor
      rw [siftDown]
      split
      · dsimp only
        split
        · rfl
        · rw [ih]
          simp
      · rfl

/-- Core invariant of the duplicate-node trick: when the loop count is odd,
equals the array length, and both the anchor slot and the last slot hold the
moved cell `m`, the sift-down loop leaves `m` in the last slot.  Every swap
writes the anchor's own cell (always `m`) into the selected child slot, so
the last slot can only ever be overwritten with `m` itself. -/
theorem siftDown_keeps_last (fuel : Nat) : ∀ (arr : List HCell) (cnt anchor : Nat) (m : HCell),
    cnt % 2 = 1 → arr.length = cnt →
    getc arr anchor = m → getc arr (cnt - 1) = m →
    getc (siftDown fuel arr cnt anchor) (cnt - 1) = m := by
  induction fuel with
  | zero => intro arr cnt anchor m _ _ _ hlast; exact hlast
  | succ k ih =>
      intro arr cnt anchor m hodd hlen hanch hlast
      rw [siftDown]
      split
      · rename_i hgt
        dsimp only
        split
        · exact hlast
        · have hb := siftChild_bounds (getc arr anchor) (getc arr (leftchild anchor))
            (getc arr (rightchild anchor)) anchor
          set c := siftChild (getc arr anchor) (getc arr (leftchild anchor))
            (getc arr (rightchild anchor)) anchor with hc
          have hclen : c < cnt := by omega
          have hanlt : anchor < cnt - 1 := by omega
          have hlen2 : ((arr.set anchor (getc arr c)).set c (getc arr anchor)).length = cnt := by
            simp [hlen]
          apply ih _ cnt c m hodd hlen2
          · exact (getc_set_self (arr.set anchor (getc arr c)) c (getc arr anchor)
              (by simp [hlen]; omega)).trans hanch
          · by_cases hce : c = cnt - 1
            · rw [← hce]
              exact (getc_set_self (arr.set anchor (getc arr c)) c (getc arr anchor)
                (by simp [hlen]; omega)).trans hanch
            · exact ((getc_set_ne _ c (cnt - 1) _ hce).trans
                (getc_set_ne _ anchor (cnt - 1) _ (by omega))).trans hlast
      · exact hlast

theorem heapMoveFix_spec (s : HeapPQ) (hwf : s.pq.length = s.count) (h2 : 2 ≤ s.count) :
    (heapMoveFix s).2.1 % 2 = 1
    ∧ (heapMoveFix s).1.length = (heapMoveFix s).2.1
    ∧ s.count - 1 ≤ (heapMoveFix s).2.1 ∧ (heapMoveFix s).2.1 ≤ s.count
    ∧ ((heapMoveFix s).2.2 = true →
        (heapMoveFix s).2.1 = s.count
        ∧ getc (heapMoveFix s).1 0 = getc s.pq (s.count - 1)
        ∧ getc (heapMoveFix s).1 ((heapMoveFix s).2.1 - 1) = getc s.pq (s.count - 1))
    ∧ ((heapMoveFix s).2.2 = false → (heapMoveFix s).2.1 = s.count - 1) := by
  have hlen1 : ((s.pq.set 0 (getc s.pq (s.count - 1))).dropLast).length = s.count - 1 := by
    simp [hwf]
  have hget0 : getc ((s.pq.set 0 (getc s.pq (s.count - 1))).dropLast) 0
      = getc s.pq (s.count - 1) := by
    rw [getc_dropLast _ 0 (by simp [hwf]; omega)]
    exact getc_set_self _ 0 _ (by omega)
  unfold heapMoveFix
  dsimp only
  split
  · rename_i heven
    refine ⟨by dsimp only; omega, by dsimp only; simp [hlen1], by dsimp only; omega,
      by dsimp only; omega, ?_, by simp⟩
    intro _
    refine ⟨by dsimp only; omega, ?_, ?_⟩
    · dsimp only
      rw [getc_append_left _ _ 0 (by omega), hget0]
    · dsimp only
      have heq : s.count - 1 + 1 - 1 = ((s.pq.set 0 (getc s.pq (s.count - 1))).dropLast).length := by
        omega
      rw [heq, getc_append_self, hget0]
  · rename_i hodd
    refine ⟨by dsimp only; omega, by dsimp only; simp [hlen1], by dsimp only; omega,
      by dsimp only; omega, by simp, by dsimp only; omega⟩

theorem heapDequeue_count (s : HeapPQ) (h : s.count ≠ 0) :
    (heapDequeue s).2.count = s.count - 1 := by
  unfold heapDequeue heapMoveFix
  dsimp only
  split
  · omega
  · split
    · simp
    · split <;> (dsimp only; simp)

theorem heapDequeue_some (s : HeapPQ) (h : s.count ≠ 0) :
    (heapDequeue s).1 = some (getc s.pq 0).data := by
  unfold heapDequeue
  dsimp only
  split
  · omega
  · split
    · simp
    · split <;> simp

theorem heapDequeue_wf (s : HeapPQ) (hwf : s.pq.length = s.count) :
    (heapDequeue s).2.pq.length = (heapDequeue s).2.count := by
  by_cases h0 : s.count = 0
  · simp only [heapDequeue]
    rw [if_pos h0]
    exact hwf
  · by_cases h1 : s.count = 1
    · simp only [heapDequeue]
      rw [if_neg h0]
      rw [if_pos h1]
      rw [List.length_dropLast, hwf]
    · obtain ⟨ho, hl, hle1, hle2, hcomp, hncomp⟩ := heapMoveFix_spec s hwf (by omega)
      simp only [heapDequeue]
      rw [if_neg h0]
      rw [if_neg h1]
      by_cases hc : (heapMoveFix s).2.2 = true
      · rw [if_pos hc]
        dsimp only
        rw [List.length_dropLast, siftDown_length]
        omega
      · rw [if_neg hc]
        dsimp only
        rw [siftDown_length]
        omega

theorem heapDisplayGo_drain (n : Nat) : ∀ s : HeapPQ, s.pq.length = s.count → n = s.count →
    heapDisplayGo n s = some (renderVals (heapDrainGo n s)) := by
  induction n with
  | zero => intro s _ _; rfl
  | succ k ih =>
      intro s hwf hn
      have h0 : s.count ≠ 0 := by omega
      have heta : heapDequeue s = (some (getc s.pq 0).data, (heapDequeue s).2) := by
        rw [← heapDequeue_some s h0]
      rw [heapDisplayGo, heapDrainGo, heta]
      dsimp only
      rw [ih (heapDequeue s).2 (heapDequeue_wf s hwf)
        (by rw [heapDequeue_count s h0]; omega)]
      rfl

theorem insertScan_length (c : LCell) (l : List LCell) :
    (insertScan c l).length = l.length + 1 := by
  induction l with
  | nil => rfl
  | cons x xs ih =>
      rw [insertScan]
      split
      · simp [ih]
      · simp

theorem listEnqueue_wf (s : ListPQ) (v : Nat) (p : Int)
    (hwf : s.cells.length = s.count) :
    (listEnqueue s v p).cells.length = (listEnqueue s v p).count := by
  unfold listEnqueue
  split
  · simp_all
  · rename_i h t heq
    split
    · simp_all
    · split
      · simp_all
      · rename_i h1 h2
        simp only []
        rw [List.length_cons, insertScan_length]
        rw [heq] at hwf
        simp_all

theorem listDisplayGo_drain (n : Nat) : ∀ s : ListPQ, s.cells.length = s.count → n = s.count →
    listDisplayGo n s = some (renderVals (listDrainGo n s)) := by
  induction n with
  | zero => intro s _ _; rfl
  | succ k ih =>
      intro s hwf hn
      have h0 : s.count ≠ 0 := by omega
      match hc : s.cells with
      | [] => rw [hc] at hwf; simp at hwf; omega
      | c :: rest =>
          have hd : listDequeue s = (some c.data, ⟨rest, s.count - 1⟩) := by
            unfold listDequeue
            rw [if_neg h0, hc]
          rw [listDisplayGo, listDrainGo, hd]
          dsimp only
          rw [ih ⟨rest, s.count - 1⟩ (by simp; rw [hc] at hwf; simp at hwf; omega) (by show k = s.count - 1; omega)]
          rfl

/-- The `clear` loop drains a well-formed list queue to the empty state. -/
theorem listClearGo_resets (n : Nat) : ∀ s : ListPQ, s.cells.length = s.count → n = s.count →
    listClearGo n s = emptyList := by
  induction n with
  | zero =>
      intro s hwf hn
      have hcnt : s.count = 0 := by omega
      have hcell : s.cells = [] := List.length_eq_zero.mp (by omega)
      show s = emptyList
      cases s
      simp_all [emptyList]
  | succ k ih =>
      intro s hwf hn
      rw [listClearGo, if_neg (by omega)]
      match hc : s.cells with
      | [] => rw [hc] at hwf; simp at hwf; omega
      | c :: rest =>
          have hd : listDequeue s = (some c.data, ⟨rest, s.count - 1⟩) := by
            unfold listDequeue
            rw [if_neg (by omega), hc]
          rw [hd]
          apply ih ⟨rest, s.count - 1⟩
          · rw [hc] at hwf; simp at hwf; simp; omega
          · show k = s.count - 1; omega

/-! ## Claim theorems -/

/-- C1: the claim says that in both implementations entries enqueued with
equal priority are dequeued FIFO.  The heap implementation violates it:
enqueueing values 0..4 with priorities 0,1,1,0,0 (strictly increasing
clock samples, the best case for the tie-break tag) drains as 0,2,3,4,1 —
value 2 overtakes value 1 although both were enqueued with priority 1 and
1 came first.  The sift-down swap branch picks the smaller-rank child even
when only the other child ties the anchor's priority, dragging a
larger-priority cell above a smaller-priority one. -/
theorem heap_tie_fifo_violation :
    heapDrain exFifo = [0, 2, 3, 4, 1]
    ∧ List.indexOf 2 (heapDrain exFifo) < List.indexOf 1 (heapDrain exFifo) := by decide

/-- C2: the claim says the tag stamped at enqueue time is strictly
increasing across the queue's lifetime.  The code stamps `c.rank = clock()`
(line 272), an external clock sample: two enqueues during the same clock
tick (here both calls return 7) receive equal tags, so the later enqueue
does not get a strictly larger tag. -/
theorem heap_rank_not_strictly_increasing :
    (heapEnqueue (heapEnqueue emptyHeap 0 5 7) 1 5 7).pq.map HCell.rank = [7, 7]
    ∧ ¬ List.Pairwise (fun a b => a < b)
        ((heapEnqueue (heapEnqueue emptyHeap 0 5 7) 1 5 7).pq.map HCell.rank) := by decide

/-- C3: the claim says draining after any sequence of enqueues emits
non-decreasing priorities in both implementations.  The heap violates it:
enqueueing priorities 0,0,1,0,0 (values equal to priorities, strictly
increasing clock samples) drains as 0,0,1,0,0 — the priority-1 entry is
emitted while priority-0 entries remain.  The list implementation on the
same input correctly emits 0,0,0,0,1. -/
theorem heap_drain_not_monotone :
    heapDrain exMono = [0, 0, 1, 0, 0]
    ∧ ¬ List.Sorted (fun a b => a ≤ b) (heapDrain exMono)
    ∧ listDrain exListMono = [0, 0, 0, 0, 1]
    ∧ List.Sorted (fun a b => a ≤ b) (listDrain exListMono) := by decide

/-- C4: after every dequeue on a well-formed non-empty heap queue the
backing array's length equals `count`, and whenever the completeness
fix-up appended a duplicate (`completed = true`, possible only for
`count ≥ 2`), the array the final `removeBack` strips still carries the
duplicated cell — the cell moved onto the root, `pqueue[count-1]` of the
pre-state — in its last slot. -/
theorem heap_dequeue_no_leftover (s : HeapPQ) (hwf : s.pq.length = s.count)
    (hne : s.count ≠ 0) :
    (heapDequeue s).2.pq.length = (heapDequeue s).2.count
    ∧ (2 ≤ s.count → (heapMoveFix s).2.2 = true →
        (siftDown (heapMoveFix s).2.1 (heapMoveFix s).1 (heapMoveFix s).2.1 0).length
          = (heapMoveFix s).2.1
        ∧ getc (siftDown (heapMoveFix s).2.1 (heapMoveFix s).1 (heapMoveFix s).2.1 0)
            ((heapMoveFix s).2.1 - 1) = getc s.pq (s.count - 1)) := by
  refine ⟨heapDequeue_wf s hwf, ?_⟩
  intro h2 hcomp
  obtain ⟨ho, hlen, hle1, hle2, hcompf, hncomp⟩ := heapMoveFix_spec s hwf h2
  obtain ⟨hcnt, hg0, hglast⟩ := hcompf hcomp
  constructor
  · rw [siftDown_length, hlen]
  · exact siftDown_keeps_last (heapMoveFix s).2.1 (heapMoveFix s).1 (heapMoveFix s).2.1 0
      (getc s.pq (s.count - 1)) ho hlen hg0 hglast

/-- C4 witness: the three-element state `exW` satisfies both hypotheses and
its dequeue triggers the duplicate fix-up. -/
theorem heap_dequeue_no_leftover_witness :
    exW.pq.length = exW.count ∧ exW.count ≠ 0
    ∧ (heapDequeue exW).2.pq.length = (heapDequeue exW).2.count
    ∧ getc (siftDown (heapMoveFix exW).2.1 (heapMoveFix exW).1 (heapMoveFix exW).2.1 0)
        ((heapMoveFix exW).2.1 - 1) = getc exW.pq (exW.count - 1) :=
  ⟨by decide, by decide, (heap_dequeue_no_leftover exW (by decide) (by decide)).1,
   ((heap_dequeue_no_leftover exW (by decide) (by decide)).2 (by decide) (by decide)).2⟩

/-- C5: the claim says the heap-order invariant ((priority, sequence)
pairwise not-greater under the tie-break ordering) holds after every
enqueue and dequeue.  It is violated: after two dequeues from the state
built by enqueueing priorities 0,0,1,0,0, the root holds priority 1 while
both its children hold priority 0. -/
theorem heap_order_invariant_violation :
    ¬ heapOrderOK (heapDequeue (heapDequeue exDist).2).2 := by decide

/-- C6: in both implementations `dequeue` and `peek` signal
`EmptyQueueError` exactly when `size() = 0`, and a failing `dequeue`
returns the receiver state unchanged.  (All other modelled operations are
total functions of the state, so no other operation can fail.) -/
theorem error_iff_empty (s : HeapPQ) (t : ListPQ) (hwfL : t.cells.length = t.count) :
    ((heapDequeue s).1 = none ↔ hsize s = 0)
    ∧ ((heapDequeue s).1 = none → (heapDequeue s).2 = s)
    ∧ (heapPeek s = none ↔ hsize s = 0)
    ∧ ((listDequeue t).1 = none ↔ lsize t = 0)
    ∧ ((listDequeue t).1 = none → (listDequeue t).2 = t)
    ∧ (listPeek t = none ↔ lsize t = 0) := by
  have hh : (heapDequeue s).1 = none ↔ s.count = 0 := by
    constructor
    · intro h
      by_contra h0
      rw [heapDequeue_some s h0] at h
      simp at h
    · intro h0
      simp [heapDequeue, h0]
  have hl : (listDequeue t).1 = none ↔ t.count = 0 := by
    constructor
    · intro h
      by_contra h0
      match hc : t.cells with
      | [] => rw [hc] at hwfL; simp at hwfL; omega
      | c :: rest =>
          unfold listDequeue at h
          rw [if_neg h0, hc] at h
          simp at h
    · intro h0
      simp [listDequeue, h0]
  refine ⟨hh, ?_, ?_, hl, ?_, ?_⟩
  · intro h
    have h0 := hh.mp h
    simp [heapDequeue, h0]
  · unfold heapPeek hsize
    split <;> simp_all
  · intro h
    have h0 := hl.mp h
    simp [listDequeue, h0]
  · unfold listPeek lsize
    split
    · simp_all
    · match hc : t.cells with
      | [] => rw [hc] at hwfL; simp at hwfL; omega
      | c :: rest => simp_all

/-- C6 witness: a one-element heap queue and a one-element list queue. -/
theorem error_iff_empty_witness :
    exL6.cells.length = exL6.count
    ∧ ((heapDequeue exH6).1 = none ↔ hsize exH6 = 0)
    ∧ (listPeek exL6 = none ↔ lsize exL6 = 0) :=
  ⟨by decide, (error_iff_empty exH6 exL6 (by decide)).1,
   (error_iff_empty exH6 exL6 (by decide)).2.2.2.2.2⟩

/-- C7 counterexample: the claim says both implementations expose the
identical surface including `clear()`.  The list-variant class declares
`clear` but the heap-variant class (`Q2_pqueue_heap.h` lines 61–138)
declares no `clear` member, so the surfaces are not identical. -/
theorem clear_missing_from_heap_surface :
    ("clear" ∈ listSurface) ∧ "clear" ∉ heapSurface := by decide

/-- C7 amended: only the list implementation exposes `clear()`; on any
well-formed starting state it removes all entries and resets to the empty
state (`size() = 0`, and a subsequent `dequeue` signals
`EmptyQueueError`).  The heap implementation declares no `clear`. -/
theorem list_clear_resets_heap_lacks_clear (s : ListPQ) (hwf : s.cells.length = s.count) :
    listClear s = emptyList
    ∧ lsize (listClear s) = 0
    ∧ (listDequeue (listClear s)).1 = none
    ∧ "clear" ∉ heapSurface := by
  have h : listClearGo s.count s = emptyList := listClearGo_resets s.count s hwf rfl
  have h2 : listClear s = emptyList := h
  refine ⟨h2, by rw [lsize, h2]; rfl, by rw [h2]; decide, by decide⟩

/-- C7 witness: clearing a two-element list queue. -/
theorem list_clear_resets_witness :
    exL7.cells.length = exL7.count ∧ listClear exL7 = emptyList ∧ "clear" ∉ heapSurface :=
  ⟨by decide, (list_clear_resets_heap_lacks_clear exL7 (by decide)).1,
   (list_clear_resets_heap_lacks_clear exL7 (by decide)).2.2.2⟩

/-- C8: the claim says assignment returns the queue itself in both
implementations.  The heap-variant `operator=` (`Q2_pqueue_heap.h` lines
420–425) copies `src`'s vector and count but contains no `return`
statement, so no value is ever returned (undefined behaviour for its
declared reference return type); the list-variant `operator=` does execute
`return *this`. -/
theorem heap_assignment_returns_nothing :
    heapAssignExec (heapEnqueue emptyHeap 9 4 0) emptyHeap = (emptyHeap, none)
    ∧ (listAssignExec false (listEnqueue emptyList 9 4) emptyList).2 = some () := by decide

/-- C9 counterexample: the claim says the display renders the contents in
priority-then-insertion order.  For the heap state built by enqueueing
values 0..4 with priorities 0,0,1,0,0, the display prints `0 1 2 3 4 `
(its buggy drain order) while the priority-then-insertion order of the
contents renders as `0 1 3 4 2 `. -/
theorem heap_display_not_spec_order :
    heapDisplay exDist = some "0 1 2 3 4 \n"
    ∧ specOrderRender exDist = "0 1 3 4 2 \n"
    ∧ heapDisplay exDist ≠ some (specOrderRender exDist) := by decide

/-- C9 amended: in both implementations the display operation renders the
queue's drain (repeated-dequeue) order — for the list variant this is
priority-then-insertion order — as space-separated values followed by a
line terminator; the displayed queue itself is passed by value and drained
only through copies, so its state is unchanged (the rendering is a pure
function of the state). -/
theorem display_renders_drain (s : HeapPQ) (hwf : s.pq.length = s.count)
    (t : ListPQ) (hwfL : t.cells.length = t.count) :
    heapDisplay s = some (renderVals (heapDrain s) ++ "\n")
    ∧ listDisplay t = some (renderVals (listDrain t) ++ "\n") := by
  constructor
  · unfold heapDisplay heapDrain
    rw [heapDisplayGo_drain s.count s hwf rfl]
    rfl
  · unfold listDisplay listDrain
    rw [listDisplayGo_drain t.count t hwfL rfl]
    rfl

/-- C9 witness: the display of a five-element heap state and a two-element
list state. -/
theorem display_renders_drain_witness :
    exDist.pq.length = exDist.count ∧ exL7.cells.length = exL7.count
    ∧ heapDisplay exDist = some (renderVals (heapDrain exDist) ++ "\n")
    ∧ listDisplay exL7 = some (renderVals (listDrain exL7) ++ "\n") :=
  ⟨by decide, by decide, (display_renders_drain exDist (by decide) exL7 (by decide)).1,
   (display_renders_drain exDist (by decide) exL7 (by decide)).2⟩

/-- C10: for a well-formed state with at least two elements, the count in
force during the sift-down loop (after the completeness fix-up) is odd and
equals the backing array's length, the loop never changes that length, and
under the loop guard `count ≥ 2*anchor+2` every accessed index — the
anchor, `leftchild(anchor)` and `rightchild(anchor) = 2*anchor+2 ≤
count-1` — is within the array's bounds. -/
theorem heap_sift_guard_inbounds (s : HeapPQ) (hwf : s.pq.length = s.count)
    (h2 : 2 ≤ s.count) :
    (heapMoveFix s).2.1 % 2 = 1
    ∧ (heapMoveFix s).1.length = (heapMoveFix s).2.1
    ∧ (∀ fuel anchor,
        (siftDown fuel (heapMoveFix s).1 (heapMoveFix s).2.1 anchor).length
          = (heapMoveFix s).2.1)
    ∧ (∀ anchor, 2 * anchor + 2 ≤ (heapMoveFix s).2.1 →
        rightchild anchor ≤ (heapMoveFix s).2.1 - 1
        ∧ anchor < (heapMoveFix s).1.length
        ∧ leftchild anchor < (heapMoveFix s).1.length
        ∧ rightchild anchor < (heapMoveFix s).1.length) := by
  obtain ⟨ho, hlen, hle1, hle2, hcompf, hncomp⟩ := heapMoveFix_spec s hwf h2
  refine ⟨ho, hlen, ?_, ?_⟩
  · intro fuel anchor
    rw [siftDown_length, hlen]
  · intro anchor hga
    unfold rightchild leftchild
    omega

/-- C10 witness: the three-element state `exW`, instantiating the in-bounds
conclusion at the root anchor. -/
theorem heap_sift_guard_inbounds_witness :
    exW.pq.length = exW.count ∧ 2 ≤ exW.count
    ∧ (heapMoveFix exW).2.1 % 2 = 1
    ∧ rightchild 0 ≤ (heapMoveFix exW).2.1 - 1 :=
  ⟨by decide, by decide, (heap_sift_guard_inbounds exW (by decide) (by decide)).1,
   ((heap_sift_guard_inbounds exW (by decide) (by decide)).2.2.2 0 (by decide)).1⟩
